import Mathlib

/-!
Verification of the distance/correlation matrix core (src/src/models/matrix.rs).

Modelling conventions:
* `f64` arithmetic is idealized as exact real arithmetic (`ℝ`); the spec
  qualifies all floating-point equalities with "up to floating-point
  tolerance", which is exact equality in this idealization.  As a
  consequence some value-level definitions are `noncomputable` (the order
  on `ℝ` is not decidable); all index-level structure stays computable.
* The hand-managed flat buffer `Matrix<T>` is modelled as a function from
  linear offsets to values together with its declared shape; `set` writes a
  single linear cell, `get`/`slice` read without bounds checks, exactly as
  the raw-pointer code does.
* Rust `usize` subtraction that can underflow (a debug-build panic) is
  modelled with a checked subtraction returning `Option`.
* The unstable lazy quicksort of the `lazysort` crate is modelled with
  insertion sort; the tie-break among equal distances is unspecified in the
  source (spec section 9), and no theorem below depends on it.
-/

namespace CvrpHgs

/-- Modelled from the spec: `Coordinate` (external to the core) is a pair of
floating-point fields, idealized as reals. -/
structure Coordinate where
  lng : ℝ
  lat : ℝ

/-- Euclidean distance between two coordinates, as in `euclidian` in the
source: `((c2.lng - c1.lng).powi(2) + (c2.lat - c1.lat).powi(2)).sqrt()`. -/
noncomputable def euclidian (c1 c2 : Coordinate) : ℝ :=
  Real.sqrt ((c2.lng - c1.lng) ^ 2 + (c2.lat - c1.lat) ^ 2)

/-- Rust `f64::round`: round half away from zero. -/
noncomputable def f64Round (x : ℝ) : ℝ :=
  if 0 ≤ x then ((⌊x + 1 / 2⌋ : ℤ) : ℝ) else ((⌈x - 1 / 2⌉ : ℤ) : ℝ)

/-- Conditional rounding, modelling `if self.rounded { distance = distance.round(); }`. -/
noncomputable def roundIf (rnd : Bool) (x : ℝ) : ℝ :=
  if rnd then f64Round x else x

/-- Modelled from the spec: `utils::FloatCompare::approx_gt` (not under `src/`)
returns true only if the first argument exceeds the second by more than an
epsilon absorbing floating-point rounding noise; in the idealized real-number
semantics there is no rounding noise, so the comparison is strict
greater-than. -/
def approx_gt (a b : ℝ) : Prop := b < a

noncomputable instance (a b : ℝ) : Decidable (approx_gt a b) :=
  Real.decidableLT b a

/-- Flat row-major 2D buffer, modelling `Matrix<T>`: one contiguous block of
`rows * cols` elements addressed by linear offset `row * cols + col`.  The
block is a total function so that raw reads are always defined; reads outside
the allocated shape are undefined behaviour in the source and are never relied
upon below. -/
structure Matrix (α : Type) where
  rows : Nat
  cols : Nat
  data : Nat → α

/-- Zero-initialized allocation (`alloc_zeroed`), modelling `Matrix::new`. -/
def Matrix.new (α : Type) [Zero α] (rows cols : Nat) : Matrix α :=
  ⟨rows, cols, fun _ => 0⟩

/-- Raw read at `(row, col)`, modelling `Matrix::get`. -/
def Matrix.get {α : Type} (m : Matrix α) (row col : Nat) : α :=
  m.data (row * m.cols + col)

/-- Raw write at `(row, col)`, modelling `Matrix::set`. -/
def Matrix.set {α : Type} (m : Matrix α) (row col : Nat) (value : α) : Matrix α :=
  { m with data := fun k => if k = row * m.cols + col then value else m.data k }

/-- Read-only view of `number` consecutive linear elements starting at
`row * cols + col`, modelling `Matrix::slice`; it may cross row boundaries. -/
def Matrix.slice {α : Type} (m : Matrix α) (row col number : Nat) : List α :=
  (List.range number).map (fun k => m.data (row * m.cols + col + k))

/-- Location lookup `self.locations[i]`; the source panics out of bounds, and
no theorem below reads out of bounds. -/
def locAt (locs : List Coordinate) (k : Nat) : Coordinate :=
  locs.getD k ⟨0, 0⟩

/-- Distance computed in the body of the build loop for the pair `p`:
Euclidean distance of the two locations, optionally rounded. -/
noncomputable def pairDist (locs : List Coordinate) (rnd : Bool) (p : Nat × Nat) : ℝ :=
  roundIf rnd (euclidian (locAt locs p.1) (locAt locs p.2))

/-- Index pairs `(i, j)` with `i < j < n` in the iteration order of the
nested loops `for i in 0..n { for j in (i+1)..n { ... } }`. -/
def pairsList (n : Nat) : List (Nat × Nat) :=
  (List.range n).flatMap
    (fun i => ((List.range n).filter (fun j => decide (i < j))).map (fun j => (i, j)))

/-- Running-maximum update in the build loop: `None` is replaced by the
distance, `Some` is bumped when `approx_gt` holds. -/
noncomputable def updateMax (acc : Option ℝ) (d : ℝ) : Option ℝ :=
  match acc with
  | some m => some (if approx_gt d m then d else m)
  | none => some d

/-- One iteration of the precompute loop: write the symmetric pair of cells
and update the running maximum. -/
noncomputable def buildStep (locs : List Coordinate) (rnd : Bool)
    (acc : Matrix ℝ × Option ℝ) (p : Nat × Nat) : Matrix ℝ × Option ℝ :=
  let d := pairDist locs rnd p
  ((acc.1.set p.1 p.2 d).set p.2 p.1 d, updateMax acc.2 d)

/-- Builder for the DistanceMatrix (`DistanceMatrixBuilder`). -/
structure DistanceMatrixBuilder where
  locations : List Coordinate
  precompute : Bool
  rounded : Bool
  max_distance : Option ℝ

/-- Modelling `DistanceMatrixBuilder::new`. -/
def DistanceMatrixBuilder.new : DistanceMatrixBuilder :=
  ⟨[], false, false, none⟩

/-- Fluent setter for the locations (named `setLocations` because Lean
reserves the field name for the projection). -/
def DistanceMatrixBuilder.setLocations (b : DistanceMatrixBuilder)
    (locations : List Coordinate) : DistanceMatrixBuilder :=
  { b with locations := locations }

/-- Fluent setter for the precompute flag. -/
def DistanceMatrixBuilder.setPrecompute (b : DistanceMatrixBuilder)
    (precompute : Bool) : DistanceMatrixBuilder :=
  { b with precompute := precompute }

/-- Fluent setter for the rounding flag. -/
def DistanceMatrixBuilder.setRounded (b : DistanceMatrixBuilder)
    (rounded : Bool) : DistanceMatrixBuilder :=
  { b with rounded := rounded }

/-- Distance matrix (`DistanceMatrix`): locations, optional precomputed
storage, flags, and the optional running maximum. -/
structure DistanceMatrix where
  locations : List Coordinate
  storage : Matrix ℝ
  precomputed : Bool
  rounded : Bool
  max_distance : Option ℝ

/-- Modelling `DistanceMatrixBuilder::build`: when `precompute` is set, fill
an `n × n` buffer over all pairs `i < j`, writing both `(i, j)` and `(j, i)`
and tracking the maximum; otherwise produce a `0 × 0` placeholder. -/
noncomputable def DistanceMatrixBuilder.build (b : DistanceMatrixBuilder) : DistanceMatrix :=
  match b.precompute with
  | true =>
    let n := b.locations.length
    let res := (pairsList n).foldl (buildStep b.locations b.rounded)
      (Matrix.new ℝ n n, b.max_distance)
    ⟨b.locations, res.1, true, b.rounded, res.2⟩
  | false => ⟨b.locations, Matrix.new ℝ 0 0, false, b.rounded, b.max_distance⟩

/-- Number of locations (`DistanceMatrix::size`). -/
def DistanceMatrix.size (dm : DistanceMatrix) : Nat :=
  dm.locations.length

/-- Modelling `DistanceMatrix::get`: precomputed lookup, or lazy recomputation
with optional rounding. -/
noncomputable def DistanceMatrix.get (dm : DistanceMatrix) (row col : Nat) : ℝ :=
  match dm.precomputed with
  | true => dm.storage.get row col
  | false => roundIf dm.rounded (euclidian (locAt dm.locations row) (locAt dm.locations col))

/-- Cursor positions visited by the lazy branch of `get_vec`: advance the
column, wrapping to column 0 of the next row when the column cursor is no
longer below `size - 1`. -/
def walkPositions (size : Nat) : Nat → Nat → Nat → List (Nat × Nat)
  | _, _, 0 => []
  | row, col, number + 1 =>
    (row, col) ::
      (if col < size - 1 then walkPositions size row (col + 1) number
       else walkPositions size (row + 1) 0 number)

/-- Modelling `DistanceMatrix::get_vec`: a direct buffer slice when
precomputed, otherwise the explicit row-major cursor walk calling `get` at
every step. -/
noncomputable def DistanceMatrix.get_vec (dm : DistanceMatrix) (row col number : Nat) : List ℝ :=
  match dm.precomputed with
  | true => dm.storage.slice row col number
  | false => (walkPositions dm.size row col number).map (fun rc => dm.get rc.1 rc.2)

/-- Modelling `DistanceMatrix::max`. -/
def DistanceMatrix.max (dm : DistanceMatrix) : Option ℝ :=
  dm.max_distance

/-- Convenience: the distance matrix produced by the builder chain
`DistanceMatrixBuilder::new().locations(l).precompute(p).rounded(r).build()`. -/
noncomputable def buildDM (locs : List Coordinate) (pre rnd : Bool) : DistanceMatrix :=
  (((DistanceMatrixBuilder.new.setLocations locs).setPrecompute pre).setRounded rnd).build

/-- Rust `usize` subtraction: underflow is a panic in debug builds, modelled
as `none`. -/
def checkedSub (a b : Nat) : Option Nat :=
  if b ≤ a then some (a - b) else none

/-- Modelling `CORRELATION_LIMIT`. -/
def CORRELATION_LIMIT : Nat := 100

/-- Per-row candidate pairs before sorting: `get_vec(i, 0, size)` enumerated
with column indices and filtered by `j > 0 && j != i`. -/
noncomputable def corrCandidates (dm : DistanceMatrix) (i : Nat) : List (Nat × ℝ) :=
  (dm.get_vec i 0 dm.size).enum.filter (fun p => decide (0 < p.1) && decide (p.1 ≠ i))

/-- Sort candidate pairs ascending by their distance component, modelling
`sorted_by(|a, b| a.1.partial_cmp(&b.1).unwrap())`. -/
noncomputable def sortPairs (l : List (Nat × ℝ)) : List (Nat × ℝ) :=
  @List.insertionSort (Nat × ℝ) (fun a b => a.2 ≤ b.2) (fun a b => Real.decidableLE a.2 b.2) l

/-- Indices stored for one row: sort, keep the first `width`, drop the
distances. -/
noncomputable def corrRowList (dm : DistanceMatrix) (width i : Nat) : List Nat :=
  ((sortPairs (corrCandidates dm i)).take width).map Prod.fst

/-- Sequential writes of a list into consecutive columns of row `i` starting
at column `start`, modelling `.enumerate().for_each(|(number, index)|
matrix.set(i, number, index))`. -/
def writeRowFrom (i : Nat) : Matrix Nat → Nat → List Nat → Matrix Nat
  | m, _, [] => m
  | m, start, x :: xs => writeRowFrom i (m.set i start x) (start + 1) xs

/-- The filled correlation storage: a zero-initialized `size × width` buffer
with every row's candidate list written in. -/
noncomputable def corrStorage (dm : DistanceMatrix) (width : Nat) : Matrix Nat :=
  (List.range dm.size).foldl
    (fun mat i => writeRowFrom i mat 0 (corrRowList dm width i))
    (Matrix.new Nat dm.size width)

/-- Correlation matrix (`CorrelationMatrix`): per-node candidate index rows. -/
structure CorrelationMatrix where
  storage : Matrix Nat
  width : Nat

/-- Modelling `CorrelationMatrix::new`.  The width is
`CORRELATION_LIMIT.min(size - 2)`; the `usize` subtraction underflows for
`size < 2` (a debug-build panic), modelled as `none`. -/
noncomputable def CorrelationMatrix.new (dm : DistanceMatrix) : Option CorrelationMatrix :=
  match checkedSub dm.size 2 with
  | none => none
  | some m =>
    let width := min CORRELATION_LIMIT m
    some ⟨corrStorage dm width, width⟩

/-- Modelling the private `CorrelationMatrix::slice`. -/
def CorrelationMatrix.slice (cm : CorrelationMatrix) (row start number : Nat) : List Nat :=
  cm.storage.slice row start number

/-- Modelling `CorrelationMatrix::get`: the full width-length candidate row. -/
def CorrelationMatrix.get (cm : CorrelationMatrix) (index : Nat) : List Nat :=
  cm.slice index 0 cm.width

/-- Modelling `CorrelationMatrix::top_slice`. -/
def CorrelationMatrix.top_slice (cm : CorrelationMatrix) (index number : Nat) : List Nat :=
  cm.slice index 0 number

/-- Modelled from the spec: a node of the external `Problem` exposes a
coordinate. -/
structure Node where
  coord : Coordinate

/-- Modelled from the spec: the external `Problem` exposes an ordered
collection of nodes. -/
structure Problem where
  nodes : List Node

/-- Modelled from the spec: the external `Config` exposes an integer
precompute-size threshold and a boolean rounding flag. -/
structure Config where
  precompute_distance_size_limit : Nat
  round_distances : Bool

/-- Provider owning the distance and correlation matrices
(`MatrixProvider`). -/
structure MatrixProvider where
  distance : DistanceMatrix
  correlation : CorrelationMatrix

/-- Modelling `MatrixProvider::new`: derive locations from the nodes, choose
`precompute = (node_count - 1) < precompute_distance_size_limit`, build the
distance matrix through the builder chain, then derive the correlation
matrix.  The `Option` propagates the `n < 2` failure of
`CorrelationMatrix::new`; the `usize` underflow of `node_count - 1` for an
empty problem (also a debug-build panic) is subsumed by that same failure. -/
noncomputable def MatrixProvider.new (problem : Problem) (config : Config) : Option MatrixProvider :=
  let locations := problem.nodes.map (fun node => node.coord)
  let precompute : Bool := decide (problem.nodes.length - 1 < config.precompute_distance_size_limit)
  let rounded : Bool := config.round_distances
  let distance :=
    (((DistanceMatrixBuilder.new.setLocations locations).setPrecompute
      precompute).setRounded rounded).build
  (CorrelationMatrix.new distance).map (fun correlation => ⟨distance, correlation⟩)

/-- One pair-write of the precompute loop in isolation: the storage component
of `buildStep`. -/
noncomputable def setPair (locs : List Coordinate) (rnd : Bool) (m : Matrix ℝ) (p : Nat × Nat) :
    Matrix ℝ :=
  (m.set p.1 p.2 (pairDist locs rnd p)).set p.2 p.1 (pairDist locs rnd p)

/-- Storage component of the precompute fold. -/
noncomputable def storageFold (locs : List Coordinate) (rnd : Bool) (n : Nat) : Matrix ℝ :=
  (pairsList n).foldl (setPair locs rnd) (Matrix.new ℝ n n)

/-- Running-maximum component of the precompute fold. -/
noncomputable def maxFold (locs : List Coordinate) (rnd : Bool) (n : Nat) (init : Option ℝ) :
    Option ℝ :=
  (pairsList n).foldl (fun acc p => updateMax acc (pairDist locs rnd p)) init

/-- The four concrete points (0,0), (0,3), (4,0), (4,3) of the spec scenario. -/
def ex4 : List Coordinate := [⟨0, 0⟩, ⟨0, 3⟩, ⟨4, 0⟩, ⟨4, 3⟩]

/-- Four collinear points for which node 0 is the nearest other node of
node 1 (used to exhibit the node-0 exclusion in the candidate lists). -/
def exLine : List Coordinate := [⟨0, 0⟩, ⟨0, 1⟩, ⟨0, 5⟩, ⟨0, 11⟩]

/-- Concrete problem over the four spec-scenario points. -/
def exProblem : Problem :=
  ⟨[⟨⟨0, 0⟩⟩, ⟨⟨0, 3⟩⟩, ⟨⟨4, 0⟩⟩, ⟨⟨4, 3⟩⟩]⟩

/-- Concrete configuration: generous precompute limit, no rounding. -/
def exConfig : Config := ⟨1000, false⟩

theorem Matrix.cols_set {α : Type} (m : Matrix α) (r c : Nat) (v : α) :
    (m.set r c v).cols = m.cols := rfl

theorem Matrix.rows_set {α : Type} (m : Matrix α) (r c : Nat) (v : α) :
    (m.set r c v).rows = m.rows := rfl

theorem Matrix.data_new {α : Type} [Zero α] (rows cols k : Nat) :
    (Matrix.new α rows cols).data k = 0 := rfl

theorem buildStep_eq (locs : List Coordinate) (rnd : Bool) (acc : Matrix ℝ × Option ℝ)
    (p : Nat × Nat) :
    buildStep locs rnd acc p =
      (setPair locs rnd acc.1 p, updateMax acc.2 (pairDist locs rnd p)) := rfl

theorem foldl_buildStep (locs : List Coordinate) (rnd : Bool) :
    ∀ (L : List (Nat × Nat)) (m : Matrix ℝ) (o : Option ℝ),
      L.foldl (buildStep locs rnd) (m, o) =
        (L.foldl (setPair locs rnd) m,
          L.foldl (fun acc p => updateMax acc (pairDist locs rnd p)) o)
  | [], _, _ => rfl
  | p :: L, m, o => by
    simp only [List.foldl_cons, buildStep_eq]
    exact foldl_buildStep locs rnd L _ _

theorem build_true_eq (locs : List Coordinate) (rnd : Bool) :
    buildDM locs true rnd =
      ⟨locs, storageFold locs rnd locs.length, true, rnd,
        maxFold locs rnd locs.length none⟩ := by
  show DistanceMatrixBuilder.build ⟨locs, true, rnd, none⟩ = _
  unfold DistanceMatrixBuilder.build
  rw [show (⟨locs, true, rnd, none⟩ : DistanceMatrixBuilder).precompute = true from rfl]
  simp only [foldl_buildStep]
  rfl

theorem build_false_eq (locs : List Coordinate) (rnd : Bool) :
    buildDM locs false rnd = ⟨locs, Matrix.new ℝ 0 0, false, rnd, none⟩ := rfl

theorem buildDM_locations (locs : List Coordinate) (pre rnd : Bool) :
    (buildDM locs pre rnd).locations = locs := by
  cases pre
  · rfl
  · rw [build_true_eq]

theorem buildDM_precomputed (locs : List Coordinate) (pre rnd : Bool) :
    (buildDM locs pre rnd).precomputed = pre := by
  cases pre
  · rfl
  · rw [build_true_eq]

theorem buildDM_rounded (locs : List Coordinate) (pre rnd : Bool) :
    (buildDM locs pre rnd).rounded = rnd := by
  cases pre
  · rfl
  · rw [build_true_eq]

theorem buildDM_size (locs : List Coordinate) (pre rnd : Bool) :
    (buildDM locs pre rnd).size = locs.length := by
  unfold DistanceMatrix.size
  rw [buildDM_locations]

theorem mem_pairsList {n i j : Nat} : (i, j) ∈ pairsList n ↔ i < j ∧ j < n := by
  simp only [pairsList, List.mem_flatMap, List.mem_map, List.mem_filter, List.mem_range,
    decide_eq_true_eq]
  constructor
  · rintro ⟨a, ha, b, ⟨hb, hab⟩, heq⟩
    injection heq with h1 h2
    subst h1
    subst h2
    exact ⟨hab, hb⟩
  · rintro ⟨hij, hjn⟩
    exact ⟨i, lt_trans hij hjn, j, ⟨hjn, hij⟩, rfl⟩

theorem lin_div {n j : Nat} (i : Nat) (hj : j < n) : (i * n + j) / n = i := by
  have hn : 0 < n := lt_of_le_of_lt (Nat.zero_le j) hj
  rw [Nat.mul_comm, Nat.mul_add_div hn, Nat.div_eq_of_lt hj, Nat.add_zero]

theorem lin_mod {n j : Nat} (i : Nat) (hj : j < n) : (i * n + j) % n = j := by
  rw [Nat.mul_comm, Nat.mul_add_mod, Nat.mod_eq_of_lt hj]

theorem lin_inj {n i j i' j' : Nat} (hj : j < n) (hj' : j' < n)
    (h : i * n + j = i' * n + j') : i = i' ∧ j = j' := by
  refine ⟨?_, ?_⟩
  · rw [← lin_div i hj, ← lin_div i' hj', h]
  · rw [← lin_mod i hj, ← lin_mod i' hj', h]

theorem setPair_cols (locs : List Coordinate) (rnd : Bool) (m : Matrix ℝ) (p : Nat × Nat) :
    (setPair locs rnd m p).cols = m.cols := rfl

theorem foldl_setPair_cols (locs : List Coordinate) (rnd : Bool) :
    ∀ (L : List (Nat × Nat)) (m : Matrix ℝ), (L.foldl (setPair locs rnd) m).cols = m.cols
  | [], _ => rfl
  | _ :: L, m => foldl_setPair_cols locs rnd L _

theorem foldl_setPair_rows (locs : List Coordinate) (rnd : Bool) :
    ∀ (L : List (Nat × Nat)) (m : Matrix ℝ), (L.foldl (setPair locs rnd) m).rows = m.rows
  | [], _ => rfl
  | _ :: L, m => foldl_setPair_rows locs rnd L _

theorem setPair_data (locs : List Coordinate) (rnd : Bool) (m : Matrix ℝ) (p : Nat × Nat)
    (k : Nat) :
    (setPair locs rnd m p).data k =
      if k = p.2 * m.cols + p.1 then pairDist locs rnd p
      else if k = p.1 * m.cols + p.2 then pairDist locs rnd p
      else m.data k := rfl

theorem euclidian_comm (c1 c2 : Coordinate) : euclidian c1 c2 = euclidian c2 c1 := by
  unfold euclidian
  congr 1
  ring

theorem pairDist_comm (locs : List Coordinate) (rnd : Bool) (i j : Nat) :
    pairDist locs rnd (i, j) = pairDist locs rnd (j, i) := by
  unfold pairDist
  rw [euclidian_comm]

theorem pairDist_minmax (locs : List Coordinate) (rnd : Bool) (i j : Nat) :
    pairDist locs rnd (min i j, max i j) = pairDist locs rnd (i, j) := by
  rcases Nat.le_total i j with h | h
  · have h1 : min i j = i := by omega
    have h2 : max i j = j := by omega
    rw [h1, h2]
  · have h1 : min i j = j := by omega
    have h2 : max i j = i := by omega
    rw [h1, h2, pairDist_comm]

theorem foldl_setPair_data (locs : List Coordinate) (rnd : Bool) (n : Nat) :
    ∀ (L : List (Nat × Nat)) (m : Matrix ℝ), m.cols = n →
      (∀ p ∈ L, p.1 < p.2 ∧ p.2 < n) →
      ∀ i j, i < n → j < n →
        (L.foldl (setPair locs rnd) m).data (i * n + j) =
          if (i, j) ∈ L ∨ (j, i) ∈ L then pairDist locs rnd (min i j, max i j)
          else m.data (i * n + j) := by
  intro L
  induction L with
  | nil =>
    intro m _ _ i j _ _
    simp
  | cons q L ih =>
    intro m hc hL i j hi hj
    have hq := hL q (List.mem_cons_self q L)
    have hcq : (setPair locs rnd m q).cols = n := by rw [setPair_cols]; exact hc
    rw [List.foldl_cons,
      ih (setPair locs rnd m q) hcq (fun p hp => hL p (List.mem_cons_of_mem q hp)) i j hi hj]
    by_cases h1 : (i, j) ∈ L ∨ (j, i) ∈ L
    · rw [if_pos h1, if_pos]
      rcases h1 with h1 | h1
      · exact Or.inl (List.mem_cons_of_mem q h1)
      · exact Or.inr (List.mem_cons_of_mem q h1)
    · rw [if_neg h1, setPair_data, hc]
      have hqmem : (q.1, q.2) ∈ q :: L := by
        rw [Prod.mk.eta]
        exact List.mem_cons_self q L
      by_cases h2 : i * n + j = q.2 * n + q.1
      · obtain ⟨rfl, rfl⟩ := lin_inj hj (lt_trans hq.1 hq.2) h2
        rw [if_pos rfl, if_pos (Or.inr hqmem)]
        have hmin : min q.2 q.1 = q.1 := by omega
        have hmax : max q.2 q.1 = q.2 := by omega
        rw [hmin, hmax]
      · rw [if_neg h2]
        by_cases h3 : i * n + j = q.1 * n + q.2
        · obtain ⟨rfl, rfl⟩ := lin_inj hj hq.2 h3
          rw [if_pos rfl, if_pos (Or.inl hqmem)]
          have hmin : min q.1 q.2 = q.1 := by omega
          have hmax : max q.1 q.2 = q.2 := by omega
          rw [hmin, hmax]
        · rw [if_neg h3, if_neg]
          intro hmem
          rcases hmem with hmem | hmem
          · rcases List.mem_cons.mp hmem with hmem | hmem
            · exact h3 (by rw [← hmem])
            · exact h1 (Or.inl hmem)
          · rcases List.mem_cons.mp hmem with hmem | hmem
            · exact h2 (by rw [← hmem])
            · exact h1 (Or.inr hmem)

theorem storageFold_cols (locs : List Coordinate) (rnd : Bool) (n : Nat) :
    (storageFold locs rnd n).cols = n :=
  foldl_setPair_cols locs rnd (pairsList n) (Matrix.new ℝ n n)

theorem storageFold_rows (locs : List Coordinate) (rnd : Bool) (n : Nat) :
    (storageFold locs rnd n).rows = n :=
  foldl_setPair_rows locs rnd (pairsList n) (Matrix.new ℝ n n)

theorem storageFold_data (locs : List Coordinate) (rnd : Bool) (n : Nat) {i j : Nat}
    (hi : i < n) (hj : j < n) :
    (storageFold locs rnd n).data (i * n + j) =
      if i = j then 0 else pairDist locs rnd (i, j) := by
  unfold storageFold
  rw [foldl_setPair_data locs rnd n (pairsList n) (Matrix.new ℝ n n) rfl
    (fun p hp => by
      obtain ⟨a, b⟩ := p
      exact (mem_pairsList.mp hp)) i j hi hj]
  by_cases hij : i = j
  · subst hij
    rw [if_neg, if_pos rfl]
    · rfl
    · intro hmem
      rcases hmem with hmem | hmem <;> exact Nat.lt_irrefl i (mem_pairsList.mp hmem).1
  · rw [if_pos, if_neg hij, pairDist_minmax]
    rcases Nat.lt_or_ge i j with h | h
    · exact Or.inl (mem_pairsList.mpr ⟨h, hj⟩)
    · exact Or.inr (mem_pairsList.mpr ⟨Nat.lt_of_le_of_ne h (fun he => hij he.symm), hi⟩)

theorem euclidian_self (c : Coordinate) : euclidian c c = 0 := by
  simp [euclidian]

theorem f64Round_zero : f64Round 0 = 0 := by
  unfold f64Round
  rw [if_pos le_rfl]
  have h : (⌊(0 : ℝ) + 1 / 2⌋ : ℤ) = 0 := by
    rw [Int.floor_eq_zero_iff]
    constructor <;> norm_num
  rw [h]
  norm_num

theorem roundIf_zero (rnd : Bool) : roundIf rnd 0 = 0 := by
  cases rnd <;> simp [roundIf, f64Round_zero]

theorem pairDist_self (locs : List Coordinate) (rnd : Bool) (i : Nat) :
    pairDist locs rnd (i, i) = 0 := by
  unfold pairDist
  rw [euclidian_self, roundIf_zero]

theorem get_buildDM_true (locs : List Coordinate) (rnd : Bool) {i j : Nat}
    (hi : i < locs.length) (hj : j < locs.length) :
    (buildDM locs true rnd).get i j = if i = j then 0 else pairDist locs rnd (i, j) := by
  rw [build_true_eq]
  show (storageFold locs rnd locs.length).get i j = _
  rw [Matrix.get, storageFold_cols, storageFold_data locs rnd locs.length hi hj]

theorem get_buildDM_false (locs : List Coordinate) (rnd : Bool) (i j : Nat) :
    (buildDM locs false rnd).get i j = pairDist locs rnd (i, j) := rfl

theorem walkPositions_eq (n : Nat) :
    ∀ (number row col : Nat), col < n →
      walkPositions n row col number =
        (List.range number).map
          (fun k => ((row * n + col + k) / n, (row * n + col + k) % n)) := by
  intro number
  induction number with
  | zero => intro row col _; rfl
  | succ number ih =>
    intro row col hcol
    rw [List.range_succ_eq_map, List.map_cons, List.map_map]
    show walkPositions n row col (number + 1) = _
    unfold walkPositions
    congr 1
    · rw [Nat.add_zero, lin_div row hcol, lin_mod row hcol]
    · by_cases hlt : col < n - 1
      · rw [if_pos hlt, ih row (col + 1) (by omega)]
        apply List.map_congr_left
        intro k _
        have harg : row * n + (col + 1) + k = row * n + col + (k + 1) := by omega
        simp only [Function.comp_apply]
        rw [harg]
      · rw [if_neg hlt, ih (row + 1) 0 (by omega)]
        apply List.map_congr_left
        intro k _
        have hceq : col = n - 1 := by omega
        have harg : (row + 1) * n + 0 + k = row * n + col + (k + 1) := by
          subst hceq
          have hn : 1 ≤ n := by omega
          have hexp : (row + 1) * n = row * n + n := by ring
          omega
        simp only [Function.comp_apply]
        rw [harg]

theorem get_vec_buildDM_true (locs : List Coordinate) (rnd : Bool) (row col number : Nat)
    (hcol : col < locs.length)
    (hbound : row * locs.length + col + number ≤ locs.length * locs.length) :
    (buildDM locs true rnd).get_vec row col number =
      (List.range number).map
        (fun k =>
          pairDist locs rnd ((row * locs.length + col + k) / locs.length,
            (row * locs.length + col + k) % locs.length)) := by
  rw [build_true_eq]
  show (storageFold locs rnd locs.length).slice row col number = _
  unfold Matrix.slice
  rw [storageFold_cols]
  apply List.map_congr_left
  intro k hk
  have hkn : k < number := List.mem_range.mp hk
  have hn : 0 < locs.length := by omega
  have hq : row * locs.length + col + k < locs.length * locs.length := by omega
  have h1 : (row * locs.length + col + k) / locs.length < locs.length :=
    (Nat.div_lt_iff_lt_mul hn).mpr hq
  have h2 : (row * locs.length + col + k) % locs.length < locs.length :=
    Nat.mod_lt _ hn
  calc (storageFold locs rnd locs.length).data (row * locs.length + col + k)
      = (storageFold locs rnd locs.length).data
          (((row * locs.length + col + k) / locs.length) * locs.length +
            (row * locs.length + col + k) % locs.length) := by
        rw [Nat.mul_comm ((row * locs.length + col + k) / locs.length) locs.length,
          Nat.div_add_mod]
    _ = _ := by
        rw [storageFold_data locs rnd locs.length h1 h2]
        by_cases hd : (row * locs.length + col + k) / locs.length =
            (row * locs.length + col + k) % locs.length
        · rw [if_pos hd, hd, pairDist_self]
        · rw [if_neg hd]

theorem get_vec_buildDM_false (locs : List Coordinate) (rnd : Bool) (row col number : Nat)
    (hcol : col < locs.length) :
    (buildDM locs false rnd).get_vec row col number =
      (List.range number).map
        (fun k =>
          pairDist locs rnd ((row * locs.length + col + k) / locs.length,
            (row * locs.length + col + k) % locs.length)) := by
  show ((walkPositions locs.length row col number).map
    (fun rc => (buildDM locs false rnd).get rc.1 rc.2)) = _
  rw [walkPositions_eq locs.length number row col hcol, List.map_map]
  rfl

theorem get_vec_row (locs : List Coordinate) (pre rnd : Bool) (i : Nat)
    (hi : i < locs.length) :
    (buildDM locs pre rnd).get_vec i 0 locs.length =
      (List.range locs.length).map (fun k => (buildDM locs pre rnd).get i k) := by
  have hn : 0 < locs.length := by omega
  have hbound : i * locs.length + 0 + locs.length ≤ locs.length * locs.length := by
    have h1 : i + 1 ≤ locs.length := hi
    calc i * locs.length + 0 + locs.length = (i + 1) * locs.length := by ring
    _ ≤ locs.length * locs.length := Nat.mul_le_mul_right locs.length h1
  have harg : ∀ k, k < locs.length →
      (i * locs.length + 0 + k) / locs.length = i ∧
        (i * locs.length + 0 + k) % locs.length = k := by
    intro k hk
    constructor
    · rw [Nat.add_zero (i * locs.length)]
      exact lin_div i hk
    · rw [Nat.add_zero (i * locs.length)]
      exact lin_mod i hk
  cases pre
  · rw [get_vec_buildDM_false locs rnd i 0 locs.length hn]
    apply List.map_congr_left
    intro k hk
    obtain ⟨h1, h2⟩ := harg k (List.mem_range.mp hk)
    rw [h1, h2, get_buildDM_false]
  · rw [get_vec_buildDM_true locs rnd i 0 locs.length hn hbound]
    apply List.map_congr_left
    intro k hk
    obtain ⟨h1, h2⟩ := harg k (List.mem_range.mp hk)
    rw [h1, h2, get_buildDM_true locs rnd hi (List.mem_range.mp hk)]
    by_cases hd : i = k
    · rw [if_pos hd, hd, pairDist_self]
    · rw [if_neg hd]

theorem updateMax_some (m d : ℝ) : updateMax (some m) d = some (max m d) := by
  show some (if approx_gt d m then d else m) = some (max m d)
  by_cases h : approx_gt d m
  · rw [if_pos h]
    exact congrArg some (max_eq_right (le_of_lt h)).symm
  · rw [if_neg h]
    exact congrArg some (max_eq_left (not_lt.mp h)).symm

theorem foldl_updateMax_some (f : Nat × Nat → ℝ) :
    ∀ (L : List (Nat × Nat)) (a : ℝ),
      L.foldl (fun acc p => updateMax acc (f p)) (some a) =
        some (L.foldl (fun m p => max m (f p)) a)
  | [], _ => rfl
  | p :: L, a => by
    rw [List.foldl_cons, List.foldl_cons, updateMax_some,
      foldl_updateMax_some f L (max a (f p))]

theorem foldl_max_mem (f : Nat × Nat → ℝ) :
    ∀ (L : List (Nat × Nat)) (a : ℝ),
      L.foldl (fun m p => max m (f p)) a = a ∨
        ∃ p ∈ L, L.foldl (fun m p => max m (f p)) a = f p
  | [], _ => Or.inl rfl
  | q :: L, a => by
    rw [List.foldl_cons]
    rcases foldl_max_mem f L (max a (f q)) with h | ⟨p, hp, h⟩
    · rcases max_choice a (f q) with hm | hm
      · exact Or.inl (by rw [h, hm])
      · exact Or.inr ⟨q, List.mem_cons_self q L, by rw [h, hm]⟩
    · exact Or.inr ⟨p, List.mem_cons_of_mem q hp, h⟩

theorem foldl_max_le (f : Nat × Nat → ℝ) :
    ∀ (L : List (Nat × Nat)) (a : ℝ),
      a ≤ L.foldl (fun m p => max m (f p)) a ∧
        ∀ p ∈ L, f p ≤ L.foldl (fun m p => max m (f p)) a
  | [], _ => ⟨le_rfl, by simp⟩
  | q :: L, a => by
    rw [List.foldl_cons]
    obtain ⟨h1, h2⟩ := foldl_max_le f L (max a (f q))
    refine ⟨le_trans (le_max_left a (f q)) h1, ?_⟩
    intro p hp
    rcases List.mem_cons.mp hp with rfl | hp
    · exact le_trans (le_max_right a (f p)) h1
    · exact h2 p hp

theorem pairsList_eq_nil {n : Nat} (h : n < 2) : pairsList n = [] := by
  have h2 : n = 0 ∨ n = 1 := by omega
  rcases h2 with rfl | rfl <;> decide

theorem maxFold_char (locs : List Coordinate) (rnd : Bool) (n : Nat) (hn : 2 ≤ n) :
    ∃ m, maxFold locs rnd n none = some m ∧
      (∃ p ∈ pairsList n, m = pairDist locs rnd p) ∧
      ∀ p ∈ pairsList n, pairDist locs rnd p ≤ m := by
  have h01 : ((0 : Nat), (1 : Nat)) ∈ pairsList n := mem_pairsList.mpr ⟨Nat.zero_lt_one, hn⟩
  obtain ⟨q, L, hqL⟩ : ∃ q L, pairsList n = q :: L := by
    cases hp : pairsList n with
    | nil => rw [hp] at h01; exact absurd h01 (List.not_mem_nil _)
    | cons q L => exact ⟨q, L, rfl⟩
  unfold maxFold
  rw [hqL, List.foldl_cons]
  show ∃ m, L.foldl (fun acc p => updateMax acc (pairDist locs rnd p))
      (some (pairDist locs rnd q)) = some m ∧ _
  rw [foldl_updateMax_some (pairDist locs rnd) L (pairDist locs rnd q)]
  refine ⟨_, rfl, ?_, ?_⟩
  · rcases foldl_max_mem (pairDist locs rnd) L (pairDist locs rnd q) with h | ⟨p, hp, h⟩
    · exact ⟨q, List.mem_cons_self q L, h⟩
    · exact ⟨p, List.mem_cons_of_mem q hp, h⟩
  · intro p hp
    rcases List.mem_cons.mp hp with rfl | hp
    · exact (foldl_max_le (pairDist locs rnd) L (pairDist locs rnd p)).1
    · exact (foldl_max_le (pairDist locs rnd) L (pairDist locs rnd q)).2 p hp

theorem walkPositions_length (size : Nat) :
    ∀ (number row col : Nat), (walkPositions size row col number).length = number := by
  intro number
  induction number with
  | zero => intro row col; rfl
  | succ number ih =>
    intro row col
    unfold walkPositions
    by_cases h : col < size - 1
    · rw [if_pos h, List.length_cons, ih]
    · rw [if_neg h, List.length_cons, ih]

theorem get_vec_length (dm : DistanceMatrix) (row col number : Nat) :
    (dm.get_vec row col number).length = number := by
  unfold DistanceMatrix.get_vec
  cases dm.precomputed
  · rw [List.length_map, walkPositions_length]
  · rw [Matrix.slice, List.length_map, List.length_range]

theorem mem_enumFrom_facts {α : Type} (d : α) :
    ∀ (l : List α) (s : Nat) (p : Nat × α), p ∈ List.enumFrom s l →
      s ≤ p.1 ∧ p.1 < s + l.length ∧ l.getD (p.1 - s) d = p.2 := by
  intro l
  induction l with
  | nil => intro s p hp; exact absurd hp (List.not_mem_nil p)
  | cons x xs ih =>
    intro s p hp
    rw [List.enumFrom_cons] at hp
    rcases List.mem_cons.mp hp with rfl | hp
    · refine ⟨le_rfl, by simp, ?_⟩
      rw [Nat.sub_self]
      rfl
    · obtain ⟨h1, h2, h3⟩ := ih (s + 1) p hp
      refine ⟨by omega, by simp; omega, ?_⟩
      rw [← h3]
      have hd : p.1 - s = (p.1 - (s + 1)) + 1 := by omega
      rw [hd]
      rfl

theorem enumFrom_mem_of {α : Type} (d : α) :
    ∀ (l : List α) (s j : Nat), j < l.length →
      (s + j, l.getD j d) ∈ List.enumFrom s l := by
  intro l
  induction l with
  | nil => intro s j hj; exact absurd hj (by simp)
  | cons x xs ih =>
    intro s j hj
    rw [List.enumFrom_cons]
    cases j with
    | zero => exact List.mem_cons_self _ _
    | succ j =>
      apply List.mem_cons_of_mem
      have harg : s + (j + 1) = (s + 1) + j := by omega
      rw [harg]
      exact ih (s + 1) j (by simpa using hj)

theorem corrPred_filter_length (i : Nat) :
    ∀ n : Nat,
      ((List.range n).filter (fun j => decide (0 < j) && decide (j ≠ i))).length +
        ((if 0 < i ∧ i < n then 1 else 0) + (if 0 < n then 1 else 0)) = n := by
  intro n
  induction n with
  | zero => simp
  | succ n ih =>
    rw [List.range_succ, List.filter_append, List.length_append]
    have hsing : (List.filter (fun j => decide (0 < j) && decide (j ≠ i)) [n]).length =
        if 0 < n ∧ n ≠ i then 1 else 0 := by
      by_cases h : 0 < n ∧ n ≠ i
      · rw [if_pos h]
        have hb : (decide (0 < n) && decide (n ≠ i)) = true := by simp [h.1, h.2]
        rw [List.filter_singleton, hb]
        rfl
      · rw [if_neg h]
        have hni : n = 0 ∨ n = i := by
          by_contra hc
          push_neg at hc
          exact h ⟨Nat.pos_of_ne_zero hc.1, hc.2⟩
        have hb : (decide (0 < n) && decide (n ≠ i)) = false := by
          rcases hni with rfl | rfl <;> simp
        rw [List.filter_singleton, hb]
        rfl
    rw [hsing]
    split_ifs at ih ⊢ <;> omega

theorem corrCandidates_length_eq (dm : DistanceMatrix) (i : Nat) :
    (corrCandidates dm i).length =
      ((List.range dm.size).filter (fun j => decide (0 < j) && decide (j ≠ i))).length := by
  unfold corrCandidates
  have h1 : ((dm.get_vec i 0 dm.size).enum.filter
        (fun p => decide (0 < p.1) && decide (p.1 ≠ i))).length =
      (((dm.get_vec i 0 dm.size).enum.map Prod.fst).filter
        (fun j => decide (0 < j) && decide (j ≠ i))).length := by
    rw [List.filter_map, List.length_map]
    rfl
  rw [h1, List.enum_eq_enumFrom, List.enumFrom_map_fst, ← List.range_eq_range',
    get_vec_length]

theorem corrCandidates_length_ge (dm : DistanceMatrix) (i : Nat) :
    dm.size - 2 ≤ (corrCandidates dm i).length := by
  rw [corrCandidates_length_eq]
  have h := corrPred_filter_length i dm.size
  split_ifs at h <;> omega

theorem corrCandidates_facts (locs : List Coordinate) (pre rnd : Bool) (i : Nat)
    (hi : i < locs.length) :
    ∀ p ∈ corrCandidates (buildDM locs pre rnd) i,
      0 < p.1 ∧ p.1 < locs.length ∧ p.1 ≠ i ∧
        p.2 = (buildDM locs pre rnd).get i p.1 := by
  intro p hp
  unfold corrCandidates at hp
  obtain ⟨hmem, hpred⟩ := List.mem_filter.mp hp
  have hpred' : 0 < p.1 ∧ p.1 ≠ i := by
    constructor
    · exact of_decide_eq_true (Bool.and_elim_left hpred)
    · exact of_decide_eq_true (Bool.and_elim_right hpred)
  rw [List.enum_eq_enumFrom] at hmem
  obtain ⟨_, h2, h3⟩ := mem_enumFrom_facts (0 : ℝ) _ 0 p hmem
  rw [get_vec_length, Nat.zero_add] at h2
  have hsize : (buildDM locs pre rnd).size = locs.length := buildDM_size locs pre rnd
  refine ⟨hpred'.1, by omega, hpred'.2, ?_⟩
  rw [← h3, Nat.sub_zero]
  rw [hsize] at h2 ⊢
  rw [get_vec_row locs pre rnd i hi, List.getD_eq_getElem _ _ (by simpa using h2)]
  simp

theorem corrCandidates_complete (locs : List Coordinate) (pre rnd : Bool) (i j : Nat)
    (hi : i < locs.length) (h0 : 0 < j) (hj : j < locs.length) (hne : j ≠ i) :
    (j, (buildDM locs pre rnd).get i j) ∈ corrCandidates (buildDM locs pre rnd) i := by
  unfold corrCandidates
  apply List.mem_filter.mpr
  constructor
  · rw [List.enum_eq_enumFrom]
    have hlen : j < ((buildDM locs pre rnd).get_vec i 0
        (buildDM locs pre rnd).size).length := by
      rw [get_vec_length, buildDM_size]
      exact hj
    have hmem := enumFrom_mem_of (0 : ℝ)
      ((buildDM locs pre rnd).get_vec i 0 (buildDM locs pre rnd).size) 0 j hlen
    rw [Nat.zero_add] at hmem
    have hval : ((buildDM locs pre rnd).get_vec i 0
        (buildDM locs pre rnd).size).getD j 0 = (buildDM locs pre rnd).get i j := by
      rw [buildDM_size, get_vec_row locs pre rnd i hi,
        List.getD_eq_getElem _ _ (by simpa using hj)]
      simp
    rw [hval] at hmem
    exact hmem
  · simp [h0, hne]

theorem writeRowFrom_cols (i : Nat) :
    ∀ (xs : List Nat) (m : Matrix Nat) (start : Nat),
      (writeRowFrom i m start xs).cols = m.cols
  | [], _, _ => rfl
  | x :: xs, m, start => writeRowFrom_cols i xs (m.set i start x) (start + 1)

theorem writeRowFrom_rows (i : Nat) :
    ∀ (xs : List Nat) (m : Matrix Nat) (start : Nat),
      (writeRowFrom i m start xs).rows = m.rows
  | [], _, _ => rfl
  | x :: xs, m, start => writeRowFrom_rows i xs (m.set i start x) (start + 1)

theorem writeRowFrom_data_out (i : Nat) :
    ∀ (xs : List Nat) (m : Matrix Nat) (start q : Nat),
      (∀ t, t < xs.length → q ≠ i * m.cols + (start + t)) →
      (writeRowFrom i m start xs).data q = m.data q
  | [], _, _, _, _ => rfl
  | x :: xs, m, start, q, h => by
    show (writeRowFrom i (m.set i start x) (start + 1) xs).data q = m.data q
    rw [writeRowFrom_data_out i xs (m.set i start x) (start + 1) q ?later]
    case later =>
      intro t ht
      have := h (t + 1) (by simpa using Nat.succ_lt_succ ht)
      rw [Matrix.cols_set]
      omega
    show (if q = i * m.cols + start then x else m.data q) = m.data q
    rw [if_neg]
    have := h 0 (by simp)
    omega

theorem writeRowFrom_data_in (i : Nat) :
    ∀ (xs : List Nat) (m : Matrix Nat) (start t : Nat), t < xs.length →
      (writeRowFrom i m start xs).data (i * m.cols + (start + t)) = xs.getD t 0
  | x :: xs, m, start, 0, _ => by
    show (writeRowFrom i (m.set i start x) (start + 1) xs).data (i * m.cols + (start + 0)) = x
    rw [writeRowFrom_data_out i xs (m.set i start x) (start + 1) _ ?later]
    case later =>
      intro t ht
      rw [Matrix.cols_set]
      omega
    show (if i * m.cols + (start + 0) = i * m.cols + start then x else _) = x
    rw [if_pos (by omega)]
  | x :: xs, m, start, t + 1, ht => by
    show (writeRowFrom i (m.set i start x) (start + 1) xs).data
      (i * m.cols + (start + (t + 1))) = (x :: xs).getD (t + 1) 0
    have harg : i * m.cols + (start + (t + 1)) =
        i * (m.set i start x).cols + ((start + 1) + t) := by
      rw [Matrix.cols_set]
      omega
    rw [harg, writeRowFrom_data_in i xs (m.set i start x) (start + 1) t (by simpa using ht)]
    rfl

theorem foldl_writeRows_cols (R : Nat → List Nat) :
    ∀ (L : List Nat) (m : Matrix Nat),
      (L.foldl (fun mat i => writeRowFrom i mat 0 (R i)) m).cols = m.cols
  | [], _ => rfl
  | i :: L, m => by
    rw [List.foldl_cons, foldl_writeRows_cols R L, writeRowFrom_cols]

theorem foldl_writeRows_rows (R : Nat → List Nat) :
    ∀ (L : List Nat) (m : Matrix Nat),
      (L.foldl (fun mat i => writeRowFrom i mat 0 (R i)) m).rows = m.rows
  | [], _ => rfl
  | i :: L, m => by
    rw [List.foldl_cons, foldl_writeRows_rows R L, writeRowFrom_rows]

theorem foldl_writeRows_data_out (R : Nat → List Nat) :
    ∀ (L : List Nat) (m : Matrix Nat) (q : Nat),
      (∀ i' ∈ L, ∀ t, t < (R i').length → q ≠ i' * m.cols + t) →
      (L.foldl (fun mat i => writeRowFrom i mat 0 (R i)) m).data q = m.data q
  | [], _, _, _ => rfl
  | i :: L, m, q, h => by
    rw [List.foldl_cons,
      foldl_writeRows_data_out R L (writeRowFrom i m 0 (R i)) q ?rest]
    case rest =>
      intro i' hi' t ht
      rw [writeRowFrom_cols]
      exact h i' (List.mem_cons_of_mem i hi') t ht
    apply writeRowFrom_data_out
    intro t ht
    have := h i (List.mem_cons_self i L) t ht
    omega

theorem foldl_writeRows_data_in (R : Nat → List Nat) :
    ∀ (L : List Nat), L.Nodup → ∀ (m : Matrix Nat) (i : Nat), i ∈ L →
      (∀ i', (R i').length ≤ m.cols) →
      ∀ t, t < (R i).length →
      (L.foldl (fun mat i => writeRowFrom i mat 0 (R i)) m).data (i * m.cols + t) =
        (R i).getD t 0
  | [], _, _, _, hmem, _, _, _ => absurd hmem (List.not_mem_nil _)
  | j :: L, hnd, m, i, hmem, hle, t, ht => by
    have hndL : L.Nodup := (List.nodup_cons.mp hnd).2
    have hjL : j ∉ L := (List.nodup_cons.mp hnd).1
    rw [List.foldl_cons]
    rcases List.mem_cons.mp hmem with rfl | hmem
    · rw [foldl_writeRows_data_out R L (writeRowFrom i m 0 (R i)) _ ?rest]
      case rest =>
        intro i' hi' t' ht'
        rw [writeRowFrom_cols]
        intro heq
        have hti : t < m.cols := lt_of_lt_of_le ht (hle i)
        have hti' : t' < m.cols := lt_of_lt_of_le ht' (hle i')
        obtain ⟨rfl, rfl⟩ := lin_inj hti hti' heq
        exact hjL hi'
      have := writeRowFrom_data_in i (R i) m 0 t ht
      rw [Nat.zero_add] at this
      exact this
    · have hcols : (writeRowFrom j m 0 (R j)).cols = m.cols := writeRowFrom_cols j (R j) m 0
      have := foldl_writeRows_data_in R L hndL (writeRowFrom j m 0 (R j)) i hmem
        (fun i' => by rw [hcols]; exact hle i') t ht
      rw [hcols] at this
      exact this

theorem list_eq_map_getD :
    ∀ (xs : List Nat), (List.range xs.length).map (fun k => xs.getD k 0) = xs
  | [] => rfl
  | x :: xs => by
    rw [List.length_cons, List.range_succ_eq_map, List.map_cons, List.map_map]
    congr 1
    have hcomp : ((fun k => (x :: xs).getD k 0) ∘ Nat.succ) = fun k => xs.getD k 0 := by
      funext k
      rfl
    rw [hcomp, list_eq_map_getD xs]

theorem sortPairs_perm (l : List (Nat × ℝ)) : List.Perm (sortPairs l) l :=
  List.perm_insertionSort _ l

instance : IsTotal (Nat × ℝ) (fun a b => a.2 ≤ b.2) :=
  ⟨fun a b => le_total a.2 b.2⟩

instance : IsTrans (Nat × ℝ) (fun a b => a.2 ≤ b.2) :=
  ⟨fun _ _ _ h1 h2 => le_trans h1 h2⟩

theorem sortPairs_sorted (l : List (Nat × ℝ)) :
    List.Sorted (fun a b : Nat × ℝ => a.2 ≤ b.2) (sortPairs l) :=
  List.sorted_insertionSort _ l

theorem corrRowList_length_le (dm : DistanceMatrix) (width i : Nat) :
    (corrRowList dm width i).length ≤ width := by
  unfold corrRowList
  rw [List.length_map, List.length_take]
  exact min_le_left _ _

theorem corrRowList_length (dm : DistanceMatrix) (width i : Nat)
    (hw : width ≤ dm.size - 2) :
    (corrRowList dm width i).length = width := by
  unfold corrRowList
  rw [List.length_map, List.length_take,
    List.Perm.length_eq (sortPairs_perm (corrCandidates dm i))]
  have := corrCandidates_length_ge dm i
  omega

theorem corrStorage_cols (dm : DistanceMatrix) (width : Nat) :
    (corrStorage dm width).cols = width :=
  foldl_writeRows_cols _ (List.range dm.size) (Matrix.new Nat dm.size width)

theorem corrStorage_rows (dm : DistanceMatrix) (width : Nat) :
    (corrStorage dm width).rows = dm.size :=
  foldl_writeRows_rows _ (List.range dm.size) (Matrix.new Nat dm.size width)

theorem corrStorage_slice_row (dm : DistanceMatrix) (width i : Nat)
    (hw : width ≤ dm.size - 2) (hi : i < dm.size) :
    (corrStorage dm width).slice i 0 width = corrRowList dm width i := by
  unfold Matrix.slice
  rw [corrStorage_cols]
  have hlen : (corrRowList dm width i).length = width := corrRowList_length dm width i hw
  have hdata : ∀ k, k < width →
      (corrStorage dm width).data (i * width + k) = (corrRowList dm width i).getD k 0 := by
    intro k hk
    unfold corrStorage
    have := foldl_writeRows_data_in (corrRowList dm width) (List.range dm.size)
      (List.nodup_range dm.size) (Matrix.new Nat dm.size width) i
      (List.mem_range.mpr hi) (fun i' => corrRowList_length_le dm width i') k
      (by rw [hlen]; exact hk)
    exact this
  calc (List.range width).map (fun k => (corrStorage dm width).data (i * width + 0 + k))
      = (List.range width).map (fun k => (corrRowList dm width i).getD k 0) := by
        apply List.map_congr_left
        intro k hk
        rw [Nat.add_zero (i * width)]
        exact hdata k (List.mem_range.mp hk)
    _ = corrRowList dm width i := by
        set xs := corrRowList dm width i with hxs
        rw [← hlen, list_eq_map_getD xs]

theorem corrNew_eq (dm : DistanceMatrix) (h2 : 2 ≤ dm.size) :
    CorrelationMatrix.new dm =
      some ⟨corrStorage dm (min CORRELATION_LIMIT (dm.size - 2)),
        min CORRELATION_LIMIT (dm.size - 2)⟩ := by
  unfold CorrelationMatrix.new checkedSub
  rw [if_pos h2]

theorem corrNew_none (dm : DistanceMatrix) (h2 : dm.size < 2) :
    CorrelationMatrix.new dm = none := by
  unfold CorrelationMatrix.new checkedSub
  rw [if_neg (by omega)]

theorem corrGet_eq (dm : DistanceMatrix) (h2 : 2 ≤ dm.size) (i : Nat) (hi : i < dm.size)
    (cm : CorrelationMatrix) (hcm : CorrelationMatrix.new dm = some cm) :
    cm.width = min CORRELATION_LIMIT (dm.size - 2) ∧
      cm.get i = corrRowList dm cm.width i := by
  rw [corrNew_eq dm h2] at hcm
  have hcm' := Option.some.inj hcm
  subst hcm'
  refine ⟨rfl, ?_⟩
  show (corrStorage dm (min CORRELATION_LIMIT (dm.size - 2))).slice i 0
    (min CORRELATION_LIMIT (dm.size - 2)) = _
  exact corrStorage_slice_row dm (min CORRELATION_LIMIT (dm.size - 2)) i
    (min_le_right _ _) hi

theorem corrRowList_pair_value (locs : List Coordinate) (pre rnd : Bool) (i w : Nat)
    (hi : i < locs.length) :
    ∀ p ∈ (sortPairs (corrCandidates (buildDM locs pre rnd) i)).take w,
      p.2 = (buildDM locs pre rnd).get i p.1 := by
  intro p hp
  have hp' : p ∈ corrCandidates (buildDM locs pre rnd) i :=
    (sortPairs_perm _).mem_iff.mp (List.take_subset _ _ hp)
  exact (corrCandidates_facts locs pre rnd i hi p hp').2.2.2

theorem corrRowList_mem (locs : List Coordinate) (pre rnd : Bool) (i w : Nat)
    (hi : i < locs.length) :
    ∀ j ∈ corrRowList (buildDM locs pre rnd) w i,
      0 < j ∧ j < locs.length ∧ j ≠ i := by
  intro j hj
  unfold corrRowList at hj
  obtain ⟨p, hp, rfl⟩ := List.mem_map.mp hj
  have hp' : p ∈ corrCandidates (buildDM locs pre rnd) i :=
    (sortPairs_perm _).mem_iff.mp (List.take_subset _ _ hp)
  obtain ⟨h1, h2, h3, _⟩ := corrCandidates_facts locs pre rnd i hi p hp'
  exact ⟨h1, h2, h3⟩

theorem corrRowList_nodup (dm : DistanceMatrix) (i w : Nat) :
    (corrRowList dm w i).Nodup := by
  unfold corrRowList
  have h0 : List.Sublist ((corrCandidates dm i).map Prod.fst)
      ((dm.get_vec i 0 dm.size).enum.map Prod.fst) := by
    unfold corrCandidates
    exact (List.filter_sublist _).map Prod.fst
  have h1 : ((corrCandidates dm i).map Prod.fst).Nodup := by
    apply List.Nodup.sublist h0
    rw [List.enum_eq_enumFrom, List.enumFrom_map_fst, ← List.range_eq_range']
    exact List.nodup_range _
  have h2 : ((sortPairs (corrCandidates dm i)).map Prod.fst).Nodup :=
    (List.Perm.nodup_iff ((sortPairs_perm _).map Prod.fst)).mpr h1
  exact List.Nodup.sublist ((List.take_sublist w _).map Prod.fst) h2

theorem corrRowList_sorted (locs : List Coordinate) (pre rnd : Bool) (i w : Nat)
    (hi : i < locs.length) :
    (corrRowList (buildDM locs pre rnd) w i).Pairwise
      (fun a b => (buildDM locs pre rnd).get i a ≤ (buildDM locs pre rnd).get i b) := by
  unfold corrRowList
  rw [List.pairwise_map]
  have hsorted : ((sortPairs (corrCandidates (buildDM locs pre rnd) i)).take w).Pairwise
      (fun p q : Nat × ℝ => p.2 ≤ q.2) :=
    List.Pairwise.sublist (List.take_sublist w _) (sortPairs_sorted _)
  apply List.Pairwise.imp_of_mem ?_ hsorted
  intro p q hp hq hle
  rw [← corrRowList_pair_value locs pre rnd i w hi p hp,
    ← corrRowList_pair_value locs pre rnd i w hi q hq]
  exact hle

theorem corrRowList_nearest (locs : List Coordinate) (pre rnd : Bool) (i w : Nat)
    (hi : i < locs.length) :
    ∀ a ∈ corrRowList (buildDM locs pre rnd) w i,
      ∀ k, 0 < k → k < locs.length → k ≠ i →
        k ∉ corrRowList (buildDM locs pre rnd) w i →
        (buildDM locs pre rnd).get i a ≤ (buildDM locs pre rnd).get i k := by
  intro a ha k hk0 hkn hki hknot
  unfold corrRowList at ha hknot
  obtain ⟨pa, hpa, rfl⟩ := List.mem_map.mp ha
  have hkc : (k, (buildDM locs pre rnd).get i k) ∈
      corrCandidates (buildDM locs pre rnd) i :=
    corrCandidates_complete locs pre rnd i k hi hk0 hkn hki
  have hks : (k, (buildDM locs pre rnd).get i k) ∈
      sortPairs (corrCandidates (buildDM locs pre rnd) i) :=
    (sortPairs_perm _).mem_iff.mpr hkc
  have hknt : (k, (buildDM locs pre rnd).get i k) ∉
      (sortPairs (corrCandidates (buildDM locs pre rnd) i)).take w := by
    intro hc
    exact hknot (List.mem_map.mpr ⟨_, hc, rfl⟩)
  have hsplit := List.take_append_drop w (sortPairs (corrCandidates (buildDM locs pre rnd) i))
  have hkd : (k, (buildDM locs pre rnd).get i k) ∈
      (sortPairs (corrCandidates (buildDM locs pre rnd) i)).drop w := by
    rw [← hsplit] at hks
    rcases List.mem_append.mp hks with h | h
    · exact absurd h hknt
    · exact h
  have hpw : (((sortPairs (corrCandidates (buildDM locs pre rnd) i)).take w) ++
      ((sortPairs (corrCandidates (buildDM locs pre rnd) i)).drop w)).Pairwise
        (fun p q : Nat × ℝ => p.2 ≤ q.2) := by
    rw [hsplit]
    exact sortPairs_sorted _
  have hle := (List.pairwise_append.mp hpw).2.2 pa hpa
    (k, (buildDM locs pre rnd).get i k) hkd
  rw [← corrRowList_pair_value locs pre rnd i w hi pa hpa]
  exact hle

theorem max_buildDM_true (locs : List Coordinate) (rnd : Bool) (h2 : 2 ≤ locs.length) :
    ∃ m, (buildDM locs true rnd).max = some m ∧
      (∃ i j, i < locs.length ∧ j < locs.length ∧ i ≠ j ∧
        m = (buildDM locs true rnd).get i j) ∧
      ∀ i j, i < locs.length → j < locs.length → i ≠ j →
        (buildDM locs true rnd).get i j ≤ m := by
  obtain ⟨m, hm, ⟨p, hp, hval⟩, hbound⟩ := maxFold_char locs rnd locs.length h2
  have hmax : (buildDM locs true rnd).max = maxFold locs rnd locs.length none := by
    rw [build_true_eq]
    rfl
  refine ⟨m, by rw [hmax]; exact hm, ?_, ?_⟩
  · obtain ⟨a, b⟩ := p
    obtain ⟨hab, hbn⟩ := mem_pairsList.mp hp
    refine ⟨a, b, lt_trans hab hbn, hbn, Nat.ne_of_lt hab, ?_⟩
    rw [get_buildDM_true locs rnd (lt_trans hab hbn) hbn, if_neg (Nat.ne_of_lt hab)]
    exact hval
  · intro i j hi hj hij
    rw [get_buildDM_true locs rnd hi hj, if_neg hij]
    rcases Nat.lt_or_ge i j with h | h
    · exact hbound (i, j) (mem_pairsList.mpr ⟨h, hj⟩)
    · have hji : j < i := by omega
      rw [pairDist_comm]
      exact hbound (j, i) (mem_pairsList.mpr ⟨hji, hi⟩)

theorem sqrt_eval {a b : ℝ} (hb : 0 ≤ b) (h : b ^ 2 = a) : Real.sqrt a = b := by
  rw [← h, Real.sqrt_sq hb]

theorem f64Round_eq_round (x : ℝ) (hx : 0 ≤ x) : f64Round x = ((round x : ℤ) : ℝ) := by
  unfold f64Round
  rw [if_pos hx, round_eq]

/-- Claim C3: building with `precompute = true` and with `precompute = false`
over identical locations and rounding setting yields equal `get(i, j)` for
every pair of valid indices (exact equality in the idealized real
semantics). -/
theorem C3_mode_equivalence (locs : List Coordinate) (rnd : Bool) (i j : Nat)
    (hi : i < locs.length) (hj : j < locs.length) :
    (buildDM locs true rnd).get i j = (buildDM locs false rnd).get i j := by
  rw [get_buildDM_true locs rnd hi hj, get_buildDM_false]
  by_cases h : i = j
  · rw [if_pos h, h, pairDist_self]
  · rw [if_neg h]

theorem C3_mode_equivalence_witness :
    (buildDM ex4 true false).get 0 1 = (buildDM ex4 false false).get 0 1 :=
  C3_mode_equivalence ex4 false 0 1 (by decide) (by decide)

/-- Claim C5: a matrix built with `precompute = true` is symmetric
(`get(i, j) = get(j, i)` for all valid indices), every diagonal entry is 0,
and the diagonal cell of the storage still holds its zero-initialized
value. -/
theorem C5_symmetry_diagonal (locs : List Coordinate) (rnd : Bool) (i j : Nat)
    (hi : i < locs.length) (hj : j < locs.length) :
    (buildDM locs true rnd).get i j = (buildDM locs true rnd).get j i ∧
    (buildDM locs true rnd).get i i = 0 ∧
    (buildDM locs true rnd).storage.data (i * locs.length + i) =
      (Matrix.new ℝ locs.length locs.length).data (i * locs.length + i) := by
  refine ⟨?_, ?_, ?_⟩
  · rw [get_buildDM_true locs rnd hi hj, get_buildDM_true locs rnd hj hi]
    by_cases h : i = j
    · rw [if_pos h, if_pos h.symm]
    · rw [if_neg h, if_neg (Ne.symm h), pairDist_comm]
  · rw [get_buildDM_true locs rnd hi hi, if_pos rfl]
  · rw [build_true_eq]
    show (storageFold locs rnd locs.length).data _ = _
    rw [storageFold_data locs rnd locs.length hi hi, if_pos rfl]
    rfl

theorem C5_symmetry_diagonal_witness :
    (buildDM ex4 true false).get 0 1 = (buildDM ex4 true false).get 1 0 ∧
    (buildDM ex4 true false).get 0 0 = 0 ∧
    (buildDM ex4 true false).storage.data (0 * ex4.length + 0) =
      (Matrix.new ℝ ex4.length ex4.length).data (0 * ex4.length + 0) :=
  C5_symmetry_diagonal ex4 false 0 1 (by decide) (by decide)

/-- Claim C9: with `rounded = true` (in either mode), `get(i, j)` equals the
cast of `round` of the Euclidean distance between locations i and j, and that
integer is a nearest integer to the distance. -/
theorem C9_rounding (locs : List Coordinate) (pre : Bool) (i j : Nat)
    (hi : i < locs.length) (hj : j < locs.length) :
    (buildDM locs pre true).get i j =
      ((round (euclidian (locAt locs i) (locAt locs j)) : ℤ) : ℝ) ∧
    ∀ z : ℤ, |euclidian (locAt locs i) (locAt locs j) -
        ((round (euclidian (locAt locs i) (locAt locs j)) : ℤ) : ℝ)| ≤
      |euclidian (locAt locs i) (locAt locs j) - (z : ℝ)| := by
  have hval : pairDist locs true (i, j) =
      ((round (euclidian (locAt locs i) (locAt locs j)) : ℤ) : ℝ) := by
    show roundIf true (euclidian (locAt locs i) (locAt locs j)) = _
    show f64Round (euclidian (locAt locs i) (locAt locs j)) = _
    exact f64Round_eq_round _ (Real.sqrt_nonneg _)
  constructor
  · cases pre
    · rw [get_buildDM_false]
      exact hval
    · rw [get_buildDM_true locs true hi hj]
      by_cases h : i = j
      · rw [if_pos h]
        subst h
        rw [euclidian_self, round_zero]
        simp
      · rw [if_neg h]
        exact hval
  · intro z
    exact round_le _ z

theorem C9_rounding_witness :
    (buildDM ex4 true true).get 0 1 =
      ((round (euclidian (locAt ex4 0) (locAt ex4 1)) : ℤ) : ℝ) ∧
    ∀ z : ℤ, |euclidian (locAt ex4 0) (locAt ex4 1) -
        ((round (euclidian (locAt ex4 0) (locAt ex4 1)) : ℤ) : ℝ)| ≤
      |euclidian (locAt ex4 0) (locAt ex4 1) - (z : ℝ)| :=
  C9_rounding ex4 true 0 1 (by decide) (by decide)

/-- Claim C6: with `precompute = true` and at least two locations, `max()`
returns `Some` of the maximum of `get(i, j)` over all distinct valid pairs;
`max()` is `None` when not precomputed, and `None` when precomputed with
fewer than two locations. -/
theorem C6_max_tracking (locs : List Coordinate) (rnd : Bool) :
    (2 ≤ locs.length →
      ∃ m, (buildDM locs true rnd).max = some m ∧
        (∃ i j, i < locs.length ∧ j < locs.length ∧ i ≠ j ∧
          m = (buildDM locs true rnd).get i j) ∧
        ∀ i j, i < locs.length → j < locs.length → i ≠ j →
          (buildDM locs true rnd).get i j ≤ m) ∧
    (buildDM locs false rnd).max = none ∧
    (locs.length < 2 → (buildDM locs true rnd).max = none) := by
  refine ⟨fun h2 => max_buildDM_true locs rnd h2, rfl, fun hlt => ?_⟩
  rw [build_true_eq]
  show maxFold locs rnd locs.length none = none
  unfold maxFold
  rw [pairsList_eq_nil hlt]
  rfl

theorem C6_max_tracking_witness :
    (∃ m, (buildDM ex4 true false).max = some m ∧
      (∃ i j, i < ex4.length ∧ j < ex4.length ∧ i ≠ j ∧
        m = (buildDM ex4 true false).get i j) ∧
      ∀ i j, i < ex4.length → j < ex4.length → i ≠ j →
        (buildDM ex4 true false).get i j ≤ m) ∧
    (buildDM ex4 false false).max = none ∧
    (buildDM [] true false).max = none :=
  ⟨(C6_max_tracking ex4 false).1 (by decide), (C6_max_tracking ex4 false).2.1,
    (C6_max_tracking [] false).2.2 (by decide)⟩

/-- Claim C7: `CorrelationMatrix` construction requires at least two
locations: then the width is `min(100, n - 2)` and the index buffer has shape
`n × width`; for `n < 2` the unsigned width computation underflows and the
construction yields no result. -/
theorem C7_width_underflow (dm : DistanceMatrix) :
    (2 ≤ dm.size →
      ∃ cm, CorrelationMatrix.new dm = some cm ∧
        cm.width = min 100 (dm.size - 2) ∧
        cm.storage.rows = dm.size ∧ cm.storage.cols = cm.width) ∧
    (dm.size < 2 → checkedSub dm.size 2 = none ∧ CorrelationMatrix.new dm = none) := by
  constructor
  · intro h2
    exact ⟨_, corrNew_eq dm h2, rfl, corrStorage_rows dm _, corrStorage_cols dm _⟩
  · intro hlt
    refine ⟨?_, corrNew_none dm hlt⟩
    unfold checkedSub
    rw [if_neg (by omega)]

theorem C7_width_underflow_witness :
    (∃ cm, CorrelationMatrix.new (buildDM ex4 true false) = some cm ∧
      cm.width = min 100 ((buildDM ex4 true false).size - 2) ∧
      cm.storage.rows = (buildDM ex4 true false).size ∧ cm.storage.cols = cm.width) ∧
    checkedSub (buildDM [] false false).size 2 = none ∧
    CorrelationMatrix.new (buildDM [] false false) = none :=
  ⟨(C7_width_underflow (buildDM ex4 true false)).1 (by decide),
    (C7_width_underflow (buildDM [] false false)).2 (by decide)⟩

/-- Claim C2: in every correlation matrix built from a built distance matrix
with at least two locations, node index 0 never appears in any row's stored
candidate list. -/
theorem C2_node_zero_never_stored (locs : List Coordinate) (pre rnd : Bool)
    (h2 : 2 ≤ locs.length) (i : Nat) (hi : i < locs.length) (cm : CorrelationMatrix)
    (hcm : CorrelationMatrix.new (buildDM locs pre rnd) = some cm) :
    0 ∉ cm.get i := by
  have hsize : (buildDM locs pre rnd).size = locs.length := buildDM_size locs pre rnd
  obtain ⟨hw, hget⟩ := corrGet_eq (buildDM locs pre rnd) (by rw [hsize]; exact h2) i
    (by rw [hsize]; exact hi) cm hcm
  rw [hget]
  intro h0
  have := corrRowList_mem locs pre rnd i cm.width hi 0 h0
  omega

theorem C2_node_zero_never_stored_witness :
    ∃ cm, CorrelationMatrix.new (buildDM exLine false false) = some cm ∧
      0 ∉ cm.get 1 := by
  refine ⟨_, corrNew_eq (buildDM exLine false false) (by decide), ?_⟩
  exact C2_node_zero_never_stored exLine false false (by decide) 1 (by decide) _
    (corrNew_eq (buildDM exLine false false) (by decide))

/-- Claim C1 (amended): for every built distance matrix over `n ≥ 2`
locations, every row i of the correlation matrix stores exactly
`width = min(100, n - 2)` indices, all distinct, each a node other than i
*and other than node 0* (the construction filters out column 0 in addition to
the row index), sorted by ascending distance from i, and no stored candidate
is farther from i than any eligible non-stored node. -/
theorem C1_nearest_candidates_amended (locs : List Coordinate) (pre rnd : Bool) (i : Nat)
    (h2 : 2 ≤ locs.length) (hi : i < locs.length) (cm : CorrelationMatrix)
    (hcm : CorrelationMatrix.new (buildDM locs pre rnd) = some cm) :
    cm.width = min 100 (locs.length - 2) ∧
    (cm.get i).length = cm.width ∧
    (cm.get i).Nodup ∧
    (∀ j ∈ cm.get i, 0 < j ∧ j < locs.length ∧ j ≠ i) ∧
    (cm.get i).Pairwise
      (fun a b => (buildDM locs pre rnd).get i a ≤ (buildDM locs pre rnd).get i b) ∧
    (∀ a ∈ cm.get i, ∀ k, 0 < k → k < locs.length → k ≠ i → k ∉ cm.get i →
      (buildDM locs pre rnd).get i a ≤ (buildDM locs pre rnd).get i k) := by
  have hsize : (buildDM locs pre rnd).size = locs.length := buildDM_size locs pre rnd
  obtain ⟨hw, hget⟩ := corrGet_eq (buildDM locs pre rnd) (by rw [hsize]; exact h2) i
    (by rw [hsize]; exact hi) cm hcm
  have hwle : cm.width ≤ (buildDM locs pre rnd).size - 2 := by
    rw [hw]
    exact min_le_right _ _
  rw [hget]
  refine ⟨by rw [hw, hsize]; rfl,
    corrRowList_length (buildDM locs pre rnd) cm.width i hwle,
    corrRowList_nodup (buildDM locs pre rnd) i cm.width,
    corrRowList_mem locs pre rnd i cm.width hi,
    corrRowList_sorted locs pre rnd i cm.width hi,
    corrRowList_nearest locs pre rnd i cm.width hi⟩

theorem C1_nearest_candidates_witness :
    ∃ cm, CorrelationMatrix.new (buildDM ex4 true false) = some cm ∧
      (cm.get 0).length = cm.width ∧ (cm.get 0).Nodup ∧
      ∀ j ∈ cm.get 0, 0 < j ∧ j < ex4.length ∧ j ≠ 0 := by
  refine ⟨_, corrNew_eq (buildDM ex4 true false) (by decide), ?_⟩
  have h := C1_nearest_candidates_amended ex4 true false 0 (by decide) (by decide) _
    (corrNew_eq (buildDM ex4 true false) (by decide))
  exact ⟨h.2.1, h.2.2.1, h.2.2.2.1⟩

/-- Counterexample to claim C1 as stated: over the collinear points of
`exLine`, node 0 is strictly nearer to node 1 than stored candidate 2, yet
node 0 is absent from row 1 — the stored list is not the `width` nearest
nodes "excluding only i itself". -/
theorem C1_counterexample :
    ∃ cm, CorrelationMatrix.new (buildDM exLine false false) = some cm ∧
      0 ∉ cm.get 1 ∧ 2 ∈ cm.get 1 ∧
      (buildDM exLine false false).get 1 0 < (buildDM exLine false false).get 1 2 := by
  have h2s : 2 ≤ (buildDM exLine false false).size := by rw [buildDM_size]; decide
  have h1s : 1 < (buildDM exLine false false).size := by rw [buildDM_size]; decide
  have h1l : 1 < exLine.length := by decide
  obtain ⟨hw, hget⟩ := corrGet_eq (buildDM exLine false false) h2s 1 h1s _
    (corrNew_eq _ h2s)
  refine ⟨_, corrNew_eq _ h2s, ?_, ?_, ?_⟩
  · rw [hget]
    intro h0
    have := corrRowList_mem exLine false false 1 _ h1l 0 h0
    omega
  · rw [hget]
    have hW : min CORRELATION_LIMIT ((buildDM exLine false false).size - 2) = 2 := by
      rw [buildDM_size]
      decide
    have hwle : min CORRELATION_LIMIT ((buildDM exLine false false).size - 2) ≤
        (buildDM exLine false false).size - 2 := min_le_right _ _
    have hlen : (corrRowList (buildDM exLine false false)
        (min CORRELATION_LIMIT ((buildDM exLine false false).size - 2)) 1).length = 2 := by
      rw [corrRowList_length _ _ _ hwle]
      exact hW
    have hnd := corrRowList_nodup (buildDM exLine false false) 1
      (min CORRELATION_LIMIT ((buildDM exLine false false).size - 2))
    have hmem := corrRowList_mem exLine false false 1
      (min CORRELATION_LIMIT ((buildDM exLine false false).size - 2)) h1l
    obtain ⟨a, b, hab⟩ := List.length_eq_two.mp hlen
    have hand : a ≠ b := by
      rw [hab] at hnd
      have := (List.nodup_cons.mp hnd).1
      simp at this
      exact this
    obtain ⟨ha0, ha4, ha1⟩ := hmem a (by rw [hab]; exact List.mem_cons_self _ _)
    obtain ⟨hb0, hb4, hb1⟩ := hmem b (by rw [hab]; simp)
    have hl4 : exLine.length = 4 := rfl
    rw [hl4] at ha4 hb4
    have h2ab : a = 2 ∨ b = 2 := by omega
    rw [hab]
    rcases h2ab with rfl | rfl <;> simp
  · rw [get_buildDM_false, get_buildDM_false]
    have e10 : pairDist exLine false (1, 0) = 1 := by
      show euclidian ⟨0, 1⟩ ⟨0, 0⟩ = 1
      have h1 : euclidian ⟨0, 1⟩ ⟨0, 0⟩ = Real.sqrt 1 := by
        unfold euclidian
        norm_num
      rw [h1, Real.sqrt_one]
    have e12 : pairDist exLine false (1, 2) = 4 := by
      show euclidian ⟨0, 1⟩ ⟨0, 5⟩ = 4
      have h16 : euclidian ⟨0, 1⟩ ⟨0, 5⟩ = Real.sqrt 16 := by
        unfold euclidian
        norm_num
      rw [h16]
      exact sqrt_eval (by norm_num) (by norm_num)
    rw [e10, e12]
    norm_num

theorem walkMap_canonical (locs : List Coordinate) (pre rnd : Bool)
    (row col number : Nat) (hcol : col < locs.length)
    (hnum : row * locs.length + col + number ≤ locs.length * locs.length) :
    (walkPositions locs.length row col number).map
      (fun rc => (buildDM locs pre rnd).get rc.1 rc.2) =
      (List.range number).map
        (fun k =>
          pairDist locs rnd ((row * locs.length + col + k) / locs.length,
            (row * locs.length + col + k) % locs.length)) := by
  cases pre
  · exact get_vec_buildDM_false locs rnd row col number hcol
  · rw [walkPositions_eq locs.length number row col hcol, List.map_map]
    apply List.map_congr_left
    intro k hk
    have hkn : k < number := List.mem_range.mp hk
    have hn : 0 < locs.length := by omega
    have hq : row * locs.length + col + k < locs.length * locs.length := by omega
    have h1 : (row * locs.length + col + k) / locs.length < locs.length :=
      (Nat.div_lt_iff_lt_mul hn).mpr hq
    have h2 : (row * locs.length + col + k) % locs.length < locs.length :=
      Nat.mod_lt _ hn
    simp only [Function.comp_apply]
    rw [get_buildDM_true locs rnd h1 h2]
    by_cases hd : (row * locs.length + col + k) / locs.length =
        (row * locs.length + col + k) % locs.length
    · rw [if_pos hd, hd, pairDist_self]
    · rw [if_neg hd]

/-- Claim C4: for valid starting indices and a length that stays within the
remaining row-major elements, `get_vec` in both modes equals the manual
row-major cursor walk (advance column, wrap to column 0 of the next row at
`size - 1`) evaluated with `get`, and the two modes return identical
sequences. -/
theorem C4_get_vec_row_major_walk (locs : List Coordinate) (rnd : Bool)
    (row col number : Nat) (hrow : row < locs.length) (hcol : col < locs.length)
    (hnum : row * locs.length + col + number ≤ locs.length * locs.length) :
    (buildDM locs true rnd).get_vec row col number =
      (walkPositions locs.length row col number).map
        (fun rc => (buildDM locs true rnd).get rc.1 rc.2) ∧
    (buildDM locs false rnd).get_vec row col number =
      (walkPositions locs.length row col number).map
        (fun rc => (buildDM locs false rnd).get rc.1 rc.2) ∧
    (buildDM locs true rnd).get_vec row col number =
      (buildDM locs false rnd).get_vec row col number := by
  have hT := get_vec_buildDM_true locs rnd row col number hcol hnum
  have hF := get_vec_buildDM_false locs rnd row col number hcol
  have hwT := walkMap_canonical locs true rnd row col number hcol hnum
  have hwF := walkMap_canonical locs false rnd row col number hcol hnum
  exact ⟨hT.trans hwT.symm, hF.trans hwF.symm, hT.trans hF.symm⟩

theorem C4_get_vec_row_major_walk_witness :
    (buildDM ex4 true false).get_vec 1 2 7 =
      (walkPositions ex4.length 1 2 7).map
        (fun rc => (buildDM ex4 true false).get rc.1 rc.2) ∧
    (buildDM ex4 false false).get_vec 1 2 7 =
      (walkPositions ex4.length 1 2 7).map
        (fun rc => (buildDM ex4 false false).get rc.1 rc.2) ∧
    (buildDM ex4 true false).get_vec 1 2 7 =
      (buildDM ex4 false false).get_vec 1 2 7 :=
  C4_get_vec_row_major_walk ex4 false 1 2 7 (by decide) (by decide) (by decide)

/-- Claim C8: `MatrixProvider::new` derives the locations from the problem's
nodes in order, chooses `precompute = (node_count - 1) <
precompute_distance_size_limit`, takes `rounded` from the config, builds the
distance matrix with exactly that configuration and derives the correlation
matrix from it. -/
theorem C8_provider_composition (problem : Problem) (config : Config)
    (h1 : 1 ≤ problem.nodes.length) :
    MatrixProvider.new problem config =
      (CorrelationMatrix.new (buildDM (problem.nodes.map (fun node => node.coord))
          (decide (problem.nodes.length - 1 < config.precompute_distance_size_limit))
          config.round_distances)).map
        (fun correlation =>
          ⟨buildDM (problem.nodes.map (fun node => node.coord))
            (decide (problem.nodes.length - 1 < config.precompute_distance_size_limit))
            config.round_distances, correlation⟩) ∧
    ∀ mp, MatrixProvider.new problem config = some mp →
      mp.distance.precomputed =
        decide (problem.nodes.length - 1 < config.precompute_distance_size_limit) ∧
      mp.distance.rounded = config.round_distances ∧
      mp.distance.locations = problem.nodes.map (fun node => node.coord) := by
  have hd : MatrixProvider.new problem config =
      (CorrelationMatrix.new (buildDM (problem.nodes.map (fun node => node.coord))
          (decide (problem.nodes.length - 1 < config.precompute_distance_size_limit))
          config.round_distances)).map
        (fun correlation =>
          ⟨buildDM (problem.nodes.map (fun node => node.coord))
            (decide (problem.nodes.length - 1 < config.precompute_distance_size_limit))
            config.round_distances, correlation⟩) := rfl
  refine ⟨hd, ?_⟩
  intro mp hmp
  rw [hd] at hmp
  obtain ⟨corr, _, hcor⟩ := Option.map_eq_some'.mp hmp
  rw [← hcor]
  exact ⟨buildDM_precomputed _ _ _, buildDM_rounded _ _ _, buildDM_locations _ _ _⟩

theorem C8_provider_composition_witness :
    MatrixProvider.new exProblem exConfig =
      (CorrelationMatrix.new (buildDM (exProblem.nodes.map (fun node => node.coord))
          (decide (exProblem.nodes.length - 1 < exConfig.precompute_distance_size_limit))
          exConfig.round_distances)).map
        (fun correlation =>
          ⟨buildDM (exProblem.nodes.map (fun node => node.coord))
            (decide (exProblem.nodes.length - 1 < exConfig.precompute_distance_size_limit))
            exConfig.round_distances, correlation⟩) :=
  (C8_provider_composition exProblem exConfig (by decide)).1

theorem ex4_pairDist_01 : pairDist ex4 false (0, 1) = 3 := by
  show euclidian ⟨0, 0⟩ ⟨0, 3⟩ = 3
  have h : euclidian ⟨0, 0⟩ ⟨0, 3⟩ = Real.sqrt 9 := by
    unfold euclidian
    norm_num
  rw [h]
  exact sqrt_eval (by norm_num) (by norm_num)

theorem ex4_pairDist_02 : pairDist ex4 false (0, 2) = 4 := by
  show euclidian ⟨0, 0⟩ ⟨4, 0⟩ = 4
  have h : euclidian ⟨0, 0⟩ ⟨4, 0⟩ = Real.sqrt 16 := by
    unfold euclidian
    norm_num
  rw [h]
  exact sqrt_eval (by norm_num) (by norm_num)

theorem ex4_pairDist_03 : pairDist ex4 false (0, 3) = 5 := by
  show euclidian ⟨0, 0⟩ ⟨4, 3⟩ = 5
  have h : euclidian ⟨0, 0⟩ ⟨4, 3⟩ = Real.sqrt 25 := by
    unfold euclidian
    norm_num
  rw [h]
  exact sqrt_eval (by norm_num) (by norm_num)

theorem ex4_pairDist_12 : pairDist ex4 false (1, 2) = 5 := by
  show euclidian ⟨0, 3⟩ ⟨4, 0⟩ = 5
  have h : euclidian ⟨0, 3⟩ ⟨4, 0⟩ = Real.sqrt 25 := by
    unfold euclidian
    norm_num
  rw [h]
  exact sqrt_eval (by norm_num) (by norm_num)

theorem ex4_pairDist_13 : pairDist ex4 false (1, 3) = 4 := by
  show euclidian ⟨0, 3⟩ ⟨4, 3⟩ = 4
  have h : euclidian ⟨0, 3⟩ ⟨4, 3⟩ = Real.sqrt 16 := by
    unfold euclidian
    norm_num
  rw [h]
  exact sqrt_eval (by norm_num) (by norm_num)

theorem ex4_pairDist_23 : pairDist ex4 false (2, 3) = 3 := by
  show euclidian ⟨4, 0⟩ ⟨4, 3⟩ = 3
  have h : euclidian ⟨4, 0⟩ ⟨4, 3⟩ = Real.sqrt 9 := by
    unfold euclidian
    norm_num
  rw [h]
  exact sqrt_eval (by norm_num) (by norm_num)

theorem ex4_get_00 : (buildDM ex4 true false).get 0 0 = 0 := by
  rw [get_buildDM_true ex4 false (by decide) (by decide), if_pos rfl]

theorem ex4_get_01 : (buildDM ex4 true false).get 0 1 = 3 := by
  rw [get_buildDM_true ex4 false (by decide) (by decide), if_neg (by decide),
    ex4_pairDist_01]

theorem ex4_get_02 : (buildDM ex4 true false).get 0 2 = 4 := by
  rw [get_buildDM_true ex4 false (by decide) (by decide), if_neg (by decide),
    ex4_pairDist_02]

theorem ex4_get_03 : (buildDM ex4 true false).get 0 3 = 5 := by
  rw [get_buildDM_true ex4 false (by decide) (by decide), if_neg (by decide),
    ex4_pairDist_03]

theorem ex4_get_12 : (buildDM ex4 true false).get 1 2 = 5 := by
  rw [get_buildDM_true ex4 false (by decide) (by decide), if_neg (by decide),
    ex4_pairDist_12]

theorem ex4_max : (buildDM ex4 true false).max = some 5 := by
  rw [build_true_eq]
  show maxFold ex4 false ex4.length none = some 5
  rw [show ex4.length = 4 from rfl]
  unfold maxFold
  rw [show pairsList 4 = [(0, 1), (0, 2), (0, 3), (1, 2), (1, 3), (2, 3)] from by decide]
  simp only [List.foldl_cons, List.foldl_nil]
  rw [ex4_pairDist_01, ex4_pairDist_02, ex4_pairDist_03, ex4_pairDist_12,
    ex4_pairDist_13, ex4_pairDist_23]
  rw [show updateMax none (3 : ℝ) = some 3 from rfl]
  rw [updateMax_some, updateMax_some, updateMax_some, updateMax_some, updateMax_some]
  have h1 : max (3 : ℝ) 4 = 4 := max_eq_right (by norm_num)
  have h2 : max (4 : ℝ) 5 = 5 := max_eq_right (by norm_num)
  have h3 : max (5 : ℝ) 5 = 5 := max_self 5
  have h4 : max (5 : ℝ) 4 = 5 := max_eq_left (by norm_num)
  have h5 : max (5 : ℝ) 3 = 5 := max_eq_left (by norm_num)
  rw [h1, h2, h3, h4, h5]

theorem ex4_corrRow0 : corrRowList (buildDM ex4 true false) 2 0 = [1, 2] := by
  unfold corrRowList corrCandidates
  rw [buildDM_size]
  rw [get_vec_row ex4 true false 0 (by decide)]
  rw [show List.range ex4.length = [0, 1, 2, 3] from by decide]
  simp only [List.map_cons, List.map_nil]
  rw [ex4_get_00, ex4_get_01, ex4_get_02, ex4_get_03]
  have henum : List.enum [(0 : ℝ), 3, 4, 5] = [(0, (0 : ℝ)), (1, 3), (2, 4), (3, 5)] := rfl
  rw [henum]
  have hfilt : List.filter (fun p => decide (0 < p.1) && decide (p.1 ≠ 0))
      [(0, (0 : ℝ)), (1, 3), (2, 4), (3, 5)] = [(1, (3 : ℝ)), (2, 4), (3, 5)] := rfl
  rw [hfilt]
  have hsort : sortPairs [(1, (3 : ℝ)), (2, 4), (3, 5)] =
      [(1, (3 : ℝ)), (2, 4), (3, 5)] := by
    unfold sortPairs
    simp only [List.insertionSort]
    rw [List.orderedInsert_nil]
    rw [@List.orderedInsert_of_le (Nat × ℝ) (fun a b => a.2 ≤ b.2)
      (fun a b => Real.decidableLE a.2 b.2) (2, 4) (3, 5) [] (by norm_num)]
    rw [@List.orderedInsert_of_le (Nat × ℝ) (fun a b => a.2 ≤ b.2)
      (fun a b => Real.decidableLE a.2 b.2) (1, 3) (2, 4) [(3, 5)] (by norm_num)]
  rw [hsort]
  rfl

/-- Claim C10: for the four points (0,0), (0,3), (4,0), (4,3) with
`precompute = true` and `rounded = false`: `get(0,1) = 3`, `get(0,2) = 4`,
`get(1,2) = 5`, `max() = Some 5`; the correlation matrix has width
`min(100, 4 - 2) = 2` and row 0 stores node 1 then node 2 (so node 3 is
excluded). -/
theorem C10_concrete_scenario :
    (buildDM ex4 true false).get 0 1 = 3 ∧
    (buildDM ex4 true false).get 0 2 = 4 ∧
    (buildDM ex4 true false).get 1 2 = 5 ∧
    (buildDM ex4 true false).max = some 5 ∧
    ∃ cm, CorrelationMatrix.new (buildDM ex4 true false) = some cm ∧
      cm.width = 2 ∧ cm.get 0 = [1, 2] := by
  have h2s : 2 ≤ (buildDM ex4 true false).size := by rw [buildDM_size]; decide
  obtain ⟨hw, hget⟩ := corrGet_eq (buildDM ex4 true false) h2s 0
    (by rw [buildDM_size]; decide) _ (corrNew_eq _ h2s)
  refine ⟨ex4_get_01, ex4_get_02, ex4_get_12, ex4_max, _, corrNew_eq _ h2s, ?_, ?_⟩
  · show min CORRELATION_LIMIT ((buildDM ex4 true false).size - 2) = 2
    rw [buildDM_size]
    decide
  · rw [hget]
    show corrRowList (buildDM ex4 true false)
      (min CORRELATION_LIMIT ((buildDM ex4 true false).size - 2)) 0 = [1, 2]
    rw [show min CORRELATION_LIMIT ((buildDM ex4 true false).size - 2) = 2 from by
      rw [buildDM_size]; decide]
    exact ex4_corrRow0

end CvrpHgs
